import Mathlib

/-!
Verification of the ExperimentList collection of dxtbx
(src/model/boost_python/experiment_list.cc and the spec of the core it binds).

The excerpt under src/ is the scripting-binding layer.  The core class
`ExperimentList` itself lives in dxtbx/model/experiment_list.h, which is not
part of the excerpt, so the operations it provides (contains / indices /
replace / where / is_consistent and the raw container primitives) are modelled
from the spec; the wrapper functions that ARE in the excerpt (bounds-checked
item access, slicing, pickling, to_dict / from_dict) are embedded directly
from the source.

Reference identity of shared model instances is modelled by an `id` field on
`Ref`; structural value equality of two distinct instances is modelled by the
separate `val` field, so that "value-equal but distinct" instances are
expressible as refs with equal `val` and different `id`.
-/

namespace Dxtbx

/-- A handle to a shared model instance.  `id` is the reference identity
(the pointer value of the underlying `shared_ptr`); `val` stands for the
structural content of the instance, irrelevant to identity comparison. -/
structure Ref where
  id : Nat
  val : Nat
deriving DecidableEq, Repr

/-- The model kinds an Experiment references: five typed kinds plus the two
generic slots (profile, imageset). -/
inductive Kind where
  | beam
  | detector
  | goniometer
  | scan
  | crystal
  | profile
  | imageset
deriving DecidableEq, Repr

/-- The five typed model kinds, as opposed to the two generic slots. -/
def Kind.isTyped : Kind → Bool
  | .beam => true
  | .detector => true
  | .goniometer => true
  | .scan => true
  | .crystal => true
  | .profile => false
  | .imageset => false

/-- An Experiment record: one optional reference per model kind.  Any slot may
be absent (a null handle). -/
structure Experiment where
  beam : Option Ref
  detector : Option Ref
  goniometer : Option Ref
  scan : Option Ref
  crystal : Option Ref
  profile : Option Ref
  imageset : Option Ref
deriving DecidableEq, Repr

instance : Inhabited Experiment :=
  ⟨⟨none, none, none, none, none, none, none⟩⟩

/-- Read the slot of an Experiment for a given model kind. -/
def Experiment.slot (e : Experiment) : Kind → Option Ref
  | .beam => e.beam
  | .detector => e.detector
  | .goniometer => e.goniometer
  | .scan => e.scan
  | .crystal => e.crystal
  | .profile => e.profile
  | .imageset => e.imageset

/-- Overwrite the slot of an Experiment for a given model kind. -/
def Experiment.setSlot (e : Experiment) (k : Kind) (r : Option Ref) : Experiment :=
  match k with
  | .beam => ⟨r, e.detector, e.goniometer, e.scan, e.crystal, e.profile, e.imageset⟩
  | .detector => ⟨e.beam, r, e.goniometer, e.scan, e.crystal, e.profile, e.imageset⟩
  | .goniometer => ⟨e.beam, e.detector, r, e.scan, e.crystal, e.profile, e.imageset⟩
  | .scan => ⟨e.beam, e.detector, e.goniometer, r, e.crystal, e.profile, e.imageset⟩
  | .crystal => ⟨e.beam, e.detector, e.goniometer, e.scan, r, e.profile, e.imageset⟩
  | .profile => ⟨e.beam, e.detector, e.goniometer, e.scan, e.crystal, r, e.imageset⟩
  | .imageset => ⟨e.beam, e.detector, e.goniometer, e.scan, e.crystal, e.profile, r⟩

/-- The container: an ordered sequence of Experiments. -/
abbrev ExperimentList := List Experiment

/-- Reference identity: two handles denote the same underlying instance. -/
def refSame (a b : Ref) : Bool := a.id == b.id

/-- A slot matches a candidate instance iff it holds that exact instance by
identity; an absent slot matches nothing. -/
def slotMatches (s : Option Ref) (r : Ref) : Bool :=
  match s with
  | some a => refSame a r
  | none => false

/-- Positions (counting from `i`) of the elements satisfying `p`, as a single
linear scan in ascending order. -/
def scanIdx (p : Experiment → Bool) : List Experiment → Nat → List Nat
  | [], _ => []
  | e :: es, i =>
    if p e then i :: scanIdx p es (i + 1) else scanIdx p es (i + 1)

/-- Modelled from the spec: `ExperimentList::contains` of
dxtbx/model/experiment_list.h is not in the excerpt.  True iff some
Experiment's slot for kind `k` holds `r` by reference identity
(spec sections 4.2 and 3). -/
def contains (l : ExperimentList) (k : Kind) (r : Ref) : Bool :=
  l.any fun e => slotMatches (e.slot k) r

/-- Modelled from the spec: `ExperimentList::indices` of
dxtbx/model/experiment_list.h is not in the excerpt.  Ascending positions of
all Experiments whose slot for kind `k` holds `r` by identity; a single linear
scan (spec section 4.2). -/
def indices (l : ExperimentList) (k : Kind) (r : Ref) : List Nat :=
  scanIdx (fun e => slotMatches (e.slot k) r) l 0

/-- Modelled from the spec: `ExperimentList::replace` of
dxtbx/model/experiment_list.h is not in the excerpt.  For every Experiment
whose slot for kind `k` identity-equals `o`, set that slot to `n`; all other
Experiments are left untouched (spec section 4.3). -/
def replace (l : ExperimentList) (k : Kind) (o n : Ref) : ExperimentList :=
  l.map fun e => if slotMatches (e.slot k) o then e.setSlot k (some n) else e

theorem scanIdx_nil_of_all_false {p : Experiment → Bool} :
    ∀ (l : List Experiment) (i : Nat), (∀ e ∈ l, p e = false) → scanIdx p l i = [] := by
  intro l
  induction l with
  | nil => intro i _; rfl
  | cons e es ih =>
    intro i h
    have he : p e = false := h e (List.mem_cons_self e es)
    have ht : scanIdx p es (i + 1) = [] :=
      ih (i + 1) fun x hx => h x (List.mem_cons_of_mem e hx)
    simp [scanIdx, he, ht]

theorem scanIdx_le_of_mem {p : Experiment → Bool} :
    ∀ (l : List Experiment) (i j : Nat), j ∈ scanIdx p l i → i ≤ j := by
  intro l
  induction l with
  | nil => intro i j h; simp [scanIdx] at h
  | cons e es ih =>
    intro i j h
    by_cases hp : p e
    · simp only [scanIdx, hp, if_pos rfl] at h
      rcases List.mem_cons.mp h with h1 | h2
      · omega
      · have := ih (i + 1) j h2; omega
    · simp only [scanIdx, hp] at h
      have := ih (i + 1) j h
      omega

theorem scanIdx_congr {p q : Experiment → Bool} :
    ∀ (l : List Experiment) (i : Nat), (∀ e ∈ l, p e = q e) → scanIdx p l i = scanIdx q l i := by
  intro l
  induction l with
  | nil => intro i _; rfl
  | cons e es ih =>
    intro i h
    have he : p e = q e := h e (List.mem_cons_self e es)
    have ht : scanIdx p es (i + 1) = scanIdx q es (i + 1) :=
      ih (i + 1) fun x hx => h x (List.mem_cons_of_mem e hx)
    simp only [scanIdx, he, ht]

theorem scanIdx_singleton {p : Experiment → Bool} :
    ∀ (l : List Experiment) (i j : Nat) (hj : j < l.length),
      p (l.get ⟨j, hj⟩) = true →
      (∀ t (ht : t < l.length), t ≠ j → p (l.get ⟨t, ht⟩) = false) →
      scanIdx p l i = [i + j] := by
  intro l
  induction l with
  | nil => intro i j hj _ _; exact absurd hj (by simp)
  | cons e es ih =>
    intro i j hj hpj huniq
    cases hp : p e with
    | true =>
      have hj0 : j = 0 := by
        by_contra hne
        have h0 : (0 : Nat) < (e :: es).length := by simp
        have h1 := huniq 0 h0 (fun h => hne h.symm)
        have hgz : (e :: es).get ⟨0, h0⟩ = e := rfl
        rw [hgz, hp] at h1
        exact absurd h1 (by decide)
      subst hj0
      have hes : ∀ x ∈ es, p x = false := by
        intro x hx
        rcases List.mem_iff_get.mp hx with ⟨⟨t, ht⟩, rfl⟩
        have ht1 : t + 1 < (e :: es).length := by
          simp only [List.length_cons]; omega
        have h2 := huniq (t + 1) ht1 (by omega)
        have hgs : (e :: es).get ⟨t + 1, ht1⟩ = es.get ⟨t, ht⟩ := rfl
        rw [hgs] at h2
        exact h2
      have hnil := scanIdx_nil_of_all_false es (i + 1) hes
      simp [scanIdx, hp, hnil]
    | false =>
      have hj0 : j ≠ 0 := by
        intro h
        subst h
        have hgz : (e :: es).get ⟨0, hj⟩ = e := rfl
        rw [hgz, hp] at hpj
        exact absurd hpj (by decide)
      obtain ⟨j', rfl⟩ : ∃ j', j = j' + 1 := ⟨j - 1, by omega⟩
      have hj' : j' < es.length := by
        have h2 := hj; simp only [List.length_cons] at h2; omega
      have hpj' : p (es.get ⟨j', hj'⟩) = true := by
        have hgs : (e :: es).get ⟨j' + 1, hj⟩ = es.get ⟨j', hj'⟩ := rfl
        rw [hgs] at hpj
        exact hpj
      have huniq' : ∀ t (ht : t < es.length), t ≠ j' → p (es.get ⟨t, ht⟩) = false := by
        intro t ht htne
        have ht1 : t + 1 < (e :: es).length := by
          simp only [List.length_cons]; omega
        have h2 := huniq (t + 1) ht1 (by omega)
        have hgs2 : (e :: es).get ⟨t + 1, ht1⟩ = es.get ⟨t, ht⟩ := rfl
        rw [hgs2] at h2
        exact h2
      have hrec := ih (i + 1) j' hj' hpj' huniq'
      have harith : i + 1 + j' = i + (j' + 1) := by omega
      simp [scanIdx, hp, hrec, harith]

theorem contains_of_get {l : ExperimentList} {k : Kind} {r : Ref} {j : Nat}
    (hj : j < l.length) (h : slotMatches ((l.get ⟨j, hj⟩).slot k) r = true) :
    contains l k r = true := by
  apply List.any_eq_true.mpr
  exact ⟨l.get ⟨j, hj⟩, List.get_mem l j hj, h⟩

/-- C1: if exactly one Experiment holds instance `B` by identity in its slot
for a typed kind and no other does, then `contains` is true and `indices`
returns exactly that one position; since matching looks only at reference
identity, this is unaffected by other Experiments holding value-equal but
distinct instances. -/
theorem indices_unique_identity (l : ExperimentList) (k : Kind) (B : Ref) (j : Nat)
    (_hk : k.isTyped = true) (hj : j < l.length)
    (hmatch : slotMatches ((l.get ⟨j, hj⟩).slot k) B = true)
    (huniq : ∀ t (ht : t < l.length), t ≠ j →
      slotMatches ((l.get ⟨t, ht⟩).slot k) B = false) :
    contains l k B = true ∧ indices l k B = [j] := by
  refine ⟨contains_of_get hj hmatch, ?_⟩
  have := scanIdx_singleton (p := fun e => slotMatches (e.slot k) B) l 0 j hj hmatch huniq
  simpa [indices] using this

/-- C1 witness: a two-element list where experiment 1 holds beam instance
⟨5, 42⟩ and experiment 0 holds the value-equal but distinct instance ⟨4, 42⟩;
`indices` returns exactly [1]. -/
theorem indices_unique_identity_witness :
    Kind.isTyped .beam = true ∧
    contains [⟨some ⟨4, 42⟩, none, none, none, none, none, none⟩,
              ⟨some ⟨5, 42⟩, none, none, none, none, none, none⟩] .beam ⟨5, 42⟩ = true ∧
    indices [⟨some ⟨4, 42⟩, none, none, none, none, none, none⟩,
             ⟨some ⟨5, 42⟩, none, none, none, none, none, none⟩] .beam ⟨5, 42⟩ = [1] := by
  refine ⟨by decide, ?_⟩
  have h := indices_unique_identity
    [⟨some ⟨4, 42⟩, none, none, none, none, none, none⟩,
     ⟨some ⟨5, 42⟩, none, none, none, none, none, none⟩] .beam ⟨5, 42⟩ 1
    (by decide) (by decide) (by decide)
    (by decide)
  exact h

theorem scanIdx_map {p : Experiment → Bool} {g : Experiment → Experiment} :
    ∀ (l : List Experiment) (i : Nat),
      scanIdx p (l.map g) i = scanIdx (fun e => p (g e)) l i := by
  intro l
  induction l with
  | nil => intro i; rfl
  | cons e es ih =>
    intro i
    by_cases hp : p (g e) = true
    · simp [scanIdx, hp, ih (i + 1)]
    · have hp' : p (g e) = false := by
        cases hq : p (g e)
        · rfl
        · exact absurd hq hp
      simp [scanIdx, hp', ih (i + 1)]

theorem slot_setSlot_same (e : Experiment) (k : Kind) (r : Option Ref) :
    (e.setSlot k r).slot k = r := by
  cases k <;> rfl

theorem contains_eq_false_iff {l : ExperimentList} {k : Kind} {r : Ref} :
    contains l k r = false ↔ ∀ e ∈ l, slotMatches (e.slot k) r = false := by
  simp [contains, List.any_eq_false]

theorem refSame_self (r : Ref) : refSame r r = true := by
  simp [refSame]

theorem refSame_eq_false_of_ne {a b : Ref} (h : a.id ≠ b.id) : refSame a b = false := by
  simp [refSame, h]

theorem map_cond_id_of_all_false {p : Experiment → Bool} {f : Experiment → Experiment} :
    ∀ (l : List Experiment), (∀ e ∈ l, p e = false) →
      (l.map fun e => if p e then f e else e) = l := by
  intro l
  induction l with
  | nil => intro _; rfl
  | cons e es ih =>
    intro h
    have he : p e = false := h e (List.mem_cons_self e es)
    have ht := ih fun x hx => h x (List.mem_cons_of_mem e hx)
    simp [he, ht]

/-- C2 counterexample: the claim as stated fails when some Experiment already
holds `B_new` before the call.  With a single Experiment holding beam ⟨2, 7⟩
and `replace(⟨1, 7⟩, ⟨2, 7⟩)` (no match, a no-op), `indices(B_new)` afterwards
is [0] while `indices(B_old)` before the call was []. -/
theorem replace_indices_counterexample :
    ¬ (indices (replace [⟨some ⟨2, 7⟩, none, none, none, none, none, none⟩]
          .beam ⟨1, 7⟩ ⟨2, 7⟩) .beam ⟨2, 7⟩
        = indices [⟨some ⟨2, 7⟩, none, none, none, none, none, none⟩] .beam ⟨1, 7⟩) := by
  decide

/-- C2 (amended): provided `B_old` and `B_new` are distinct instances and no
Experiment holds `B_new` beforehand, `replace(B_old, B_new)` makes
`indices(B_new)` equal to the prior `indices(B_old)` and `indices(B_old)`
empty; every Experiment whose slot did not identity-match `B_old` (in
particular one holding a merely value-equal instance) is unchanged, and zero
matches means the whole call is a no-op (and never an error). -/
theorem replace_retargets_shared_references (l : ExperimentList) (k : Kind) (o n : Ref)
    (_hk : k.isTyped = true) (hid : o.id ≠ n.id) (hnew : contains l k n = false) :
    indices (replace l k o n) k n = indices l k o ∧
    indices (replace l k o n) k o = [] ∧
    (∀ j, j < l.length → slotMatches ((l.getD j default).slot k) o = false →
      (replace l k o n).getD j default = l.getD j default) ∧
    (contains l k o = false → replace l k o n = l) := by
  have hnew' := contains_eq_false_iff.mp hnew
  refine ⟨?_, ?_, ?_, ?_⟩
  · unfold indices replace
    rw [scanIdx_map]
    apply scanIdx_congr
    intro e he
    cases hm : slotMatches (e.slot k) o with
    | true =>
      show slotMatches ((e.setSlot k (some n)).slot k) n = true
      rw [slot_setSlot_same]
      show refSame n n = true
      exact refSame_self n
    | false =>
      show slotMatches (e.slot k) n = false
      exact hnew' e he
  · unfold indices replace
    rw [scanIdx_map]
    apply scanIdx_nil_of_all_false
    intro e _
    cases hm : slotMatches (e.slot k) o with
    | true =>
      show slotMatches ((e.setSlot k (some n)).slot k) o = false
      rw [slot_setSlot_same]
      show refSame n o = false
      exact refSame_eq_false_of_ne (fun h => hid h.symm)
    | false =>
      show slotMatches (e.slot k) o = false
      exact hm
  · intro j hj hm
    have hj' : j < (replace l k o n).length := by simp [replace, hj]
    rw [List.getD_eq_getElem _ _ hj', List.getD_eq_getElem _ _ hj]
    rw [List.getD_eq_getElem _ _ hj] at hm
    simp only [replace, List.getElem_map]
    rw [hm]
    rfl
  · intro ho
    have ho' := contains_eq_false_iff.mp ho
    exact map_cond_id_of_all_false l ho'

/-- C2 witness: list with one Experiment holding beam ⟨1, 7⟩ and one holding
the value-equal but distinct ⟨3, 7⟩; replacing ⟨1, 7⟩ by ⟨2, 7⟩ moves the
index set and leaves the value-equal holder alone. -/
theorem replace_retargets_witness :
    indices (replace [⟨some ⟨1, 7⟩, none, none, none, none, none, none⟩,
                      ⟨some ⟨3, 7⟩, none, none, none, none, none, none⟩]
        .beam ⟨1, 7⟩ ⟨2, 7⟩) .beam ⟨2, 7⟩
      = indices [⟨some ⟨1, 7⟩, none, none, none, none, none, none⟩,
                 ⟨some ⟨3, 7⟩, none, none, none, none, none, none⟩] .beam ⟨1, 7⟩ ∧
    indices (replace [⟨some ⟨1, 7⟩, none, none, none, none, none, none⟩,
                      ⟨some ⟨3, 7⟩, none, none, none, none, none, none⟩]
        .beam ⟨1, 7⟩ ⟨2, 7⟩) .beam ⟨1, 7⟩ = [] := by
  have h := replace_retargets_shared_references
    [⟨some ⟨1, 7⟩, none, none, none, none, none, none⟩,
     ⟨some ⟨3, 7⟩, none, none, none, none, none, none⟩]
    .beam ⟨1, 7⟩ ⟨2, 7⟩ (by decide) (by decide) (by decide)
  exact ⟨h.1, h.2.1⟩

/-- The error raised through `scitbx::boost_python::raise_index_error`. -/
inductive PyError where
  | indexError
deriving DecidableEq, Repr

/-- Embeds `experiment_list_getitem` (experiment_list.cc lines 201-206):
bounds check, then `self[n]`. -/
def experiment_list_getitem (self : ExperimentList) (n : Nat) :
    Except PyError Experiment :=
  if h : n ≥ self.length then .error .indexError
  else .ok (self.get ⟨n, by omega⟩)

/-- Embeds `experiment_list_setitem` (experiment_list.cc lines 194-199):
bounds check, then `self[n] = item`. -/
def experiment_list_setitem (self : ExperimentList) (n : Nat) (item : Experiment) :
    Except PyError ExperimentList :=
  if n ≥ self.length then .error .indexError
  else .ok (self.set n item)

/-- Embeds `experiment_list_delitem` (experiment_list.cc lines 219-224):
bounds check, then `self.erase(n)`. -/
def experiment_list_delitem (self : ExperimentList) (n : Nat) :
    Except PyError ExperimentList :=
  if n ≥ self.length then .error .indexError
  else .ok (self.eraseIdx n)

/-- C3: `get(i)`, `set(i, e)` and `delete(i)` each fail with the out-of-range
error exactly when `i ≥ size()`, and succeed when `i < size()`; a failing call
returns the error without producing any mutated list. -/
theorem indexed_access_bounds (l : ExperimentList) (n : Nat) (item : Experiment) :
    (n ≥ l.length →
      experiment_list_getitem l n = .error .indexError ∧
      experiment_list_setitem l n item = .error .indexError ∧
      experiment_list_delitem l n = .error .indexError) ∧
    (n < l.length →
      (experiment_list_getitem l n).isOk = true ∧
      (experiment_list_setitem l n item).isOk = true ∧
      (experiment_list_delitem l n).isOk = true) := by
  constructor
  · intro h
    refine ⟨?_, ?_, ?_⟩ <;>
      simp [experiment_list_getitem, experiment_list_setitem,
        experiment_list_delitem, h]
  · intro h
    have h2 : ¬ (n ≥ l.length) := by omega
    refine ⟨?_, ?_, ?_⟩ <;>
      simp [experiment_list_getitem, experiment_list_setitem,
        experiment_list_delitem, h2, Except.isOk, Except.toBool]

/-- C3 witness: on a one-element list, index 5 fails on all three operations
and index 0 succeeds on all three. -/
theorem indexed_access_bounds_witness :
    experiment_list_getitem [⟨none, none, none, none, none, none, none⟩] 5
      = .error .indexError ∧
    experiment_list_setitem [⟨none, none, none, none, none, none, none⟩] 5
      ⟨none, none, none, none, none, none, none⟩ = .error .indexError ∧
    experiment_list_delitem [⟨none, none, none, none, none, none, none⟩] 5
      = .error .indexError ∧
    (experiment_list_getitem [⟨none, none, none, none, none, none, none⟩] 0).isOk = true ∧
    (experiment_list_setitem [⟨none, none, none, none, none, none, none⟩] 0
      ⟨none, none, none, none, none, none, none⟩).isOk = true ∧
    (experiment_list_delitem [⟨none, none, none, none, none, none, none⟩] 0).isOk = true := by
  have h1 := (indexed_access_bounds [⟨none, none, none, none, none, none, none⟩] 5
    ⟨none, none, none, none, none, none, none⟩).1 (by decide)
  have h2 := (indexed_access_bounds [⟨none, none, none, none, none, none, none⟩] 0
    ⟨none, none, none, none, none, none, none⟩).2 (by decide)
  exact ⟨h1.1, h1.2.1, h1.2.2, h2.1, h2.2.1, h2.2.2⟩

/-- Embeds the loop of `experiment_list_getitem_slice` (experiment_list.cc
lines 208-217): `for (i = as.start; i < as.stop && i < self.size();
i += as.step) result.append(self[i])`.  `stp` and `step` are the adapted
slice bounds delivered by scitbx `adapted_slice` (an external collaborator
that never yields a zero step); the `0 < step` conjunct only serves
termination and is vacuous under that contract. -/
def sliceLoop (self : List Experiment) (stp step : Nat) (i : Nat) : List Experiment :=
  if _h : i < stp ∧ i < self.length ∧ 0 < step then
    self.getD i default :: sliceLoop self stp step (i + step)
  else []
termination_by stp - i
decreasing_by
  omega

/-- Embeds `experiment_list_getitem_slice` (experiment_list.cc lines
208-217), after slice adaptation. -/
def experiment_list_getitem_slice (self : ExperimentList) (start stp step : Nat) :
    ExperimentList :=
  sliceLoop self stp step start

/-- The spec's description of the visited slice positions: `i = start,
start+step, …` kept while `i < stop` and `i < size()` (clamping, no error). -/
def sliceVisited (start stp step len : Nat) : List Nat :=
  ((List.range stp).map (fun t => start + t * step)).filter
    (fun j => decide (j < stp) && decide (j < len))

theorem filter_map_range_shrink (g : Nat → Nat) (p : Nat → Bool) :
    ∀ (d a : Nat), (∀ t, a ≤ t → t < a + d → p (g t) = false) →
      ((List.range (a + d)).map g).filter p = ((List.range a).map g).filter p := by
  intro d
  induction d with
  | zero => intro a _; rfl
  | succ d ih =>
    intro a h
    have hsum : a + (d + 1) = (a + d) + 1 := by omega
    have hlast : p (g (a + d)) = false := h (a + d) (by omega) (by omega)
    have h1 : (List.map g [a + d]).filter p = [] := by simp [hlast]
    rw [hsum, List.range_succ, List.map_append, List.filter_append, h1,
      List.append_nil]
    exact ih a fun t ht1 ht2 => h t ht1 (by omega)

theorem sliceVisited_nil (l : List Experiment) (stp step i : Nat)
    (h : ¬ (i < stp ∧ i < l.length)) :
    (sliceVisited i stp step l.length).map (fun j => l.getD j default) = [] := by
  rw [List.map_eq_nil_iff]
  unfold sliceVisited
  rw [List.filter_eq_nil_iff]
  intro j hj
  rcases List.mem_map.mp hj with ⟨t, _, rfl⟩
  simp only [Bool.and_eq_true, decide_eq_true_eq]
  rintro ⟨h1, h2⟩
  have hq : i ≤ i + t * step := Nat.le_add_right _ _
  exact h ⟨Nat.lt_of_le_of_lt hq h1, Nat.lt_of_le_of_lt hq h2⟩

theorem sliceLoop_eq (l : List Experiment) (stp step : Nat) (hstep : 0 < step) :
    ∀ i, sliceLoop l stp step i =
      (sliceVisited i stp step l.length).map (fun j => l.getD j default) := by
  suffices h : ∀ (fuel i : Nat), stp - i ≤ fuel → sliceLoop l stp step i =
      (sliceVisited i stp step l.length).map (fun j => l.getD j default) by
    intro i
    exact h (stp - i) i (Nat.le_refl _)
  intro fuel
  induction fuel with
  | zero =>
    intro i hf
    have hni : ¬ (i < stp ∧ i < l.length ∧ 0 < step) := by omega
    rw [sliceLoop.eq_def, dif_neg hni]
    exact (sliceVisited_nil l stp step i (by omega)).symm
  | succ fuel ih =>
    intro i hf
    by_cases hc : i < stp ∧ i < l.length
    · rw [sliceLoop.eq_def, dif_pos ⟨hc.1, hc.2, hstep⟩]
      obtain ⟨m, hm⟩ : ∃ m, stp = m + 1 := ⟨stp - 1, by omega⟩
      have hrange : (List.range stp).map (fun t => i + t * step)
          = i :: (List.range m).map (fun t => (i + step) + t * step) := by
        rw [hm, List.range_succ_eq_map, List.map_cons, List.map_map]
        have h0 : i + 0 * step = i := by ring
        rw [h0]
        have hfun : ((fun t => i + t * step) ∘ Nat.succ)
            = (fun t => (i + step) + t * step) := by
          funext t
          simp only [Function.comp, Nat.succ_eq_add_one]
          ring
        rw [hfun]
      have hfilter : List.filter (fun j => decide (j < stp) && decide (j < l.length))
          (i :: List.map (fun t => (i + step) + t * step) (List.range m))
          = i :: List.filter (fun j => decide (j < stp) && decide (j < l.length))
              (List.map (fun t => (i + step) + t * step) (List.range m)) := by
        rw [List.filter_cons]
        simp [hc.1, hc.2]
      unfold sliceVisited
      rw [hrange, hfilter, List.map_cons]
      congr 1
      have htail := ih (i + step) (by omega)
      rw [htail]
      unfold sliceVisited
      have hfail : ∀ t, m ≤ t → t < m + 1 →
          (fun j => decide (j < stp) && decide (j < l.length))
            ((fun t => (i + step) + t * step) t) = false := by
        intro t ht1 ht2
        have htm : t = m := by omega
        have hge : stp ≤ (i + step) + t * step := by
          rw [hm, htm]
          have hmul : (m + 1) * 1 ≤ (m + 1) * step := Nat.mul_le_mul (Nat.le_refl _) hstep
          have hone : (m + 1) * 1 = m + 1 := by ring
          have hsplit : (m + 1) * step = m * step + step := by ring
          omega
        simp [Nat.not_lt.mpr hge]
      have hshrink := filter_map_range_shrink (fun t => (i + step) + t * step)
        (fun j => decide (j < stp) && decide (j < l.length)) 1 m hfail
      have hm1 : m + 1 = stp := hm.symm
      rw [hm1] at hshrink
      rw [hshrink]
    · have hni : ¬ (i < stp ∧ i < l.length ∧ 0 < step) := fun h => hc ⟨h.1, h.2.1⟩
      rw [sliceLoop.eq_def, dif_neg hni]
      exact (sliceVisited_nil l stp step i hc).symm

/-- C4: with a positive (adapted) step, `get_slice(start, stop, step)` returns
exactly the Experiments of the list at positions `start, start+step, …` kept
while below both `stop` and `size()`, in that order; the function is total, so
out-of-range slice bounds are clamped and never raise, in contrast to scalar
indexed access. -/
theorem getitem_slice_spec (l : ExperimentList) (start stp step : Nat)
    (hstep : 0 < step) :
    experiment_list_getitem_slice l start stp step =
      (sliceVisited start stp step l.length).map (fun j => l.getD j default) :=
  sliceLoop_eq l stp step hstep start

/-- C4 witness: slicing a 3-element list with start 1, stop 9 (out of range,
clamped) and step 2 visits exactly position 1. -/
theorem getitem_slice_spec_witness :
    experiment_list_getitem_slice
      [⟨some ⟨1, 0⟩, none, none, none, none, none, none⟩,
       ⟨some ⟨2, 0⟩, none, none, none, none, none, none⟩,
       ⟨some ⟨3, 0⟩, none, none, none, none, none, none⟩] 1 9 2
      = [⟨some ⟨2, 0⟩, none, none, none, none, none, none⟩] := by
  have h := getitem_slice_spec
    [⟨some ⟨1, 0⟩, none, none, none, none, none, none⟩,
     ⟨some ⟨2, 0⟩, none, none, none, none, none, none⟩,
     ⟨some ⟨3, 0⟩, none, none, none, none, none, none⟩] 1 9 2 (by decide)
  rw [h]
  decide

/-- The filter configuration accepted by `where`: one optional criterion per
slot, mirroring the keyword defaults of the binding (null `shared_ptr` /
`None`, i.e. unset). -/
structure Filters where
  beam : Option Ref
  detector : Option Ref
  goniometer : Option Ref
  scan : Option Ref
  crystal : Option Ref
  profile : Option Ref
  imageset : Option Ref
deriving DecidableEq, Repr

/-- An unset criterion constrains nothing; a set one requires the slot to
hold that instance by identity. -/
def filterSlot (f : Option Ref) (s : Option Ref) : Bool :=
  match f with
  | none => true
  | some r => slotMatches s r

/-- Conjunction of the supplied criteria over one Experiment. -/
def filtersMatch (f : Filters) (e : Experiment) : Bool :=
  filterSlot f.beam e.beam && filterSlot f.detector e.detector &&
  filterSlot f.goniometer e.goniometer && filterSlot f.scan e.scan &&
  filterSlot f.crystal e.crystal && filterSlot f.profile e.profile &&
  filterSlot f.imageset e.imageset

/-- The configuration with no filter supplied. -/
def Filters.unset : Filters := ⟨none, none, none, none, none, none, none⟩

/-- Modelled from the spec: `ExperimentList::where` is in the missing header
dxtbx/model/experiment_list.h.  Ascending indices of the Experiments matched
by every supplied criterion, by the same identity rule as `indices`
(spec section 4.5). -/
def where' (l : ExperimentList) (f : Filters) : List Nat :=
  scanIdx (filtersMatch f) l 0

/-- Per-slot union of two configurations (defined when they are disjoint). -/
def orElseRef (a b : Option Ref) : Option Ref :=
  match a with
  | some r => some r
  | none => b

/-- Supplying the union of the two configurations in one call. -/
def Filters.combine (f g : Filters) : Filters :=
  ⟨orElseRef f.beam g.beam, orElseRef f.detector g.detector,
   orElseRef f.goniometer g.goniometer, orElseRef f.scan g.scan,
   orElseRef f.crystal g.crystal, orElseRef f.profile g.profile,
   orElseRef f.imageset g.imageset⟩

def slotDisjoint (a b : Option Ref) : Bool := a.isNone || b.isNone

/-- Two configurations are disjoint when no slot is supplied by both, i.e.
they could have been supplied together in a single `where` call. -/
def Filters.disjoint (f g : Filters) : Bool :=
  slotDisjoint f.beam g.beam && slotDisjoint f.detector g.detector &&
  slotDisjoint f.goniometer g.goniometer && slotDisjoint f.scan g.scan &&
  slotDisjoint f.crystal g.crystal && slotDisjoint f.profile g.profile &&
  slotDisjoint f.imageset g.imageset

theorem filterSlot_combine {a b : Option Ref} (s : Option Ref)
    (h : slotDisjoint a b = true) :
    filterSlot (orElseRef a b) s = (filterSlot a s && filterSlot b s) := by
  cases a with
  | none => simp [orElseRef, filterSlot]
  | some r =>
    have hb : b = none := by
      cases b with
      | none => rfl
      | some r2 => simp [slotDisjoint, Option.isNone] at h
    subst hb
    simp [orElseRef, filterSlot]

theorem filtersMatch_combine {f g : Filters} (e : Experiment)
    (h : Filters.disjoint f g = true) :
    filtersMatch (f.combine g) e = (filtersMatch f e && filtersMatch g e) := by
  unfold Filters.disjoint at h
  simp only [Bool.and_eq_true] at h
  obtain ⟨⟨⟨⟨⟨⟨h1, h2⟩, h3⟩, h4⟩, h5⟩, h6⟩, h7⟩ := h
  unfold filtersMatch Filters.combine
  simp only
  rw [filterSlot_combine _ h1, filterSlot_combine _ h2, filterSlot_combine _ h3,
    filterSlot_combine _ h4, filterSlot_combine _ h5, filterSlot_combine _ h6,
    filterSlot_combine _ h7]
  simp [Bool.and_assoc, Bool.and_comm, Bool.and_left_comm]

theorem scanIdx_all_true {p : Experiment → Bool} :
    ∀ (l : List Experiment) (i : Nat), (∀ e ∈ l, p e = true) →
      scanIdx p l i = List.range' i l.length := by
  intro l
  induction l with
  | nil => intro i _; rfl
  | cons e es ih =>
    intro i h
    have he := h e (List.mem_cons_self e es)
    have ht := ih (i + 1) fun x hx => h x (List.mem_cons_of_mem e hx)
    simp [scanIdx, he, ht, List.range']

theorem not_mem_scanIdx_lt {p : Experiment → Bool} {l : List Experiment} {i j : Nat}
    (h : j < i) : j ∉ scanIdx p l i := fun hmem =>
  absurd (scanIdx_le_of_mem l i j hmem) (by omega)

theorem filter_decide_eq_or {A B : List Nat} {i : Nat}
    (hA : ∀ j ∈ A, i < j) :
    A.filter (fun j => decide (j = i) || decide (j ∈ B))
      = A.filter (fun j => decide (j ∈ B)) := by
  apply List.filter_congr
  intro j hj
  have hne : j ≠ i := fun h => absurd (hA j hj) (by omega)
  simp [hne]

theorem scanIdx_and {p q : Experiment → Bool} :
    ∀ (l : List Experiment) (i : Nat),
      scanIdx (fun e => p e && q e) l i
        = (scanIdx p l i).filter (fun j => decide (j ∈ scanIdx q l i)) := by
  intro l
  induction l with
  | nil => intro i; rfl
  | cons e es ih =>
    intro i
    have hA : ∀ j ∈ scanIdx p es (i + 1), i < j := by
      intro j hj
      have := scanIdx_le_of_mem es (i + 1) j hj
      omega
    have hiB : i ∉ scanIdx q es (i + 1) := not_mem_scanIdx_lt (by omega)
    cases hp : p e <;> cases hq : q e
    · simp [scanIdx, hp, hq, ih (i + 1)]
    · simp [scanIdx, hp, hq, ih (i + 1), filter_decide_eq_or hA]
    · simp [scanIdx, hp, hq, ih (i + 1), List.filter_cons, hiB]
    · simp [scanIdx, hp, hq, ih (i + 1), List.filter_cons, filter_decide_eq_or hA]

/-- C5: `where` with no supplied filter returns the full ascending index
range, and `where` over the union of two disjointly-supplied configurations
equals the intersection of the two individual `where` results; each criterion
matches by the same identity rule as `indices`. -/
theorem where_conjunction (l : ExperimentList) (f g : Filters)
    (hdisj : Filters.disjoint f g = true) :
    where' l Filters.unset = List.range l.length ∧
    where' l (f.combine g) = (where' l f).filter (fun j => decide (j ∈ where' l g)) := by
  constructor
  · unfold where'
    have hall : ∀ e ∈ l, filtersMatch Filters.unset e = true := by
      intro e _
      simp [filtersMatch, Filters.unset, filterSlot]
    rw [scanIdx_all_true l 0 hall, List.range_eq_range']
  · unfold where'
    rw [scanIdx_congr l 0 (fun e _ => filtersMatch_combine e hdisj)]
    exact scanIdx_and l 0

/-- C5 witness: three Experiments; `f` filters on beam ⟨1, 0⟩, `g` on
detector ⟨5, 0⟩; the combined query equals the intersection, and the
unfiltered query is the full range. -/
theorem where_conjunction_witness :
    where' [⟨some ⟨1, 0⟩, some ⟨5, 0⟩, none, none, none, none, none⟩,
            ⟨some ⟨1, 0⟩, some ⟨6, 0⟩, none, none, none, none, none⟩,
            ⟨some ⟨2, 0⟩, some ⟨5, 0⟩, none, none, none, none, none⟩]
        Filters.unset
      = List.range ([⟨some ⟨1, 0⟩, some ⟨5, 0⟩, none, none, none, none, none⟩,
            ⟨some ⟨1, 0⟩, some ⟨6, 0⟩, none, none, none, none, none⟩,
            ⟨some ⟨2, 0⟩, some ⟨5, 0⟩, none, none, none, none, none⟩] :
          ExperimentList).length ∧
    where' [⟨some ⟨1, 0⟩, some ⟨5, 0⟩, none, none, none, none, none⟩,
            ⟨some ⟨1, 0⟩, some ⟨6, 0⟩, none, none, none, none, none⟩,
            ⟨some ⟨2, 0⟩, some ⟨5, 0⟩, none, none, none, none, none⟩]
        (Filters.combine ⟨some ⟨1, 0⟩, none, none, none, none, none, none⟩
          ⟨none, some ⟨5, 0⟩, none, none, none, none, none⟩)
      = (where' [⟨some ⟨1, 0⟩, some ⟨5, 0⟩, none, none, none, none, none⟩,
            ⟨some ⟨1, 0⟩, some ⟨6, 0⟩, none, none, none, none, none⟩,
            ⟨some ⟨2, 0⟩, some ⟨5, 0⟩, none, none, none, none, none⟩]
          ⟨some ⟨1, 0⟩, none, none, none, none, none, none⟩).filter
        (fun j => decide (j ∈ where' [⟨some ⟨1, 0⟩, some ⟨5, 0⟩, none, none, none, none, none⟩,
            ⟨some ⟨1, 0⟩, some ⟨6, 0⟩, none, none, none, none, none⟩,
            ⟨some ⟨2, 0⟩, some ⟨5, 0⟩, none, none, none, none, none⟩]
          ⟨none, some ⟨5, 0⟩, none, none, none, none, none⟩)) :=
  where_conjunction
    [⟨some ⟨1, 0⟩, some ⟨5, 0⟩, none, none, none, none, none⟩,
     ⟨some ⟨1, 0⟩, some ⟨6, 0⟩, none, none, none, none, none⟩,
     ⟨some ⟨2, 0⟩, some ⟨5, 0⟩, none, none, none, none, none⟩]
    ⟨some ⟨1, 0⟩, none, none, none, none, none, none⟩
    ⟨none, some ⟨5, 0⟩, none, none, none, none, none⟩
    (by decide)

/-- Identity of two imageset references: both present and denoting the same
underlying instance.  Used to key the consistency groups; absent imagesets
form singleton groups (never identified with anything, not even each other). -/
def sameImagesetRef (a b : Option Ref) : Bool :=
  match a, b with
  | some x, some y => refSame x y
  | _, _ => false

/-- Option-level identity of two model slots: both absent, or both the same
instance. -/
def optRefSame (a b : Option Ref) : Bool :=
  match a, b with
  | some x, some y => refSame x y
  | none, none => true
  | _, _ => false

/-- Modelled from the spec: `ExperimentList::is_consistent` is in the missing
header dxtbx/model/experiment_list.h.  Spec section 4.4 fixes the algorithm
shape — group Experiments by shared imageset identity and require the
context-determined model slots to be identity-equal within a group — and
names exactly one agreement rule (two Experiments sharing an imageset must
not hold two different detector instances); only that explicit rule is
modelled, the full per-slot rule set being left open by the spec. -/
def is_consistent (l : ExperimentList) : Bool :=
  l.all fun e1 => l.all fun e2 =>
    !(sameImagesetRef e1.imageset e2.imageset) || optRefSame e1.detector e2.detector

/-- C6: a list containing two Experiments that share one imageset instance
but hold two different detector instances is reported inconsistent; the
verdict is the boolean `false` of a total function, never a thrown failure. -/
theorem is_consistent_detector_mismatch (l : ExperimentList) (i j : Nat)
    (hi : i < l.length) (hj : j < l.length) (d1 d2 : Ref)
    (him : sameImagesetRef (l.get ⟨i, hi⟩).imageset (l.get ⟨j, hj⟩).imageset = true)
    (hd1 : (l.get ⟨i, hi⟩).detector = some d1)
    (hd2 : (l.get ⟨j, hj⟩).detector = some d2)
    (hne : d1.id ≠ d2.id) :
    is_consistent l = false := by
  cases hall : is_consistent l with
  | false => rfl
  | true =>
    exfalso
    unfold is_consistent at hall
    have h1 := List.all_eq_true.mp hall (l.get ⟨i, hi⟩) (List.get_mem l i hi)
    have h2 := List.all_eq_true.mp h1 (l.get ⟨j, hj⟩) (List.get_mem l j hj)
    simp only [him, hd1, hd2] at h2
    simp [optRefSame, refSame, hne] at h2

/-- C6 witness: two Experiments sharing imageset ⟨9, 0⟩ with detectors
⟨1, 0⟩ and ⟨2, 0⟩. -/
theorem is_consistent_detector_mismatch_witness :
    is_consistent
      [⟨none, some ⟨1, 0⟩, none, none, none, none, some ⟨9, 0⟩⟩,
       ⟨none, some ⟨2, 0⟩, none, none, none, none, some ⟨9, 0⟩⟩] = false :=
  is_consistent_detector_mismatch
    [⟨none, some ⟨1, 0⟩, none, none, none, none, some ⟨9, 0⟩⟩,
     ⟨none, some ⟨2, 0⟩, none, none, none, none, some ⟨9, 0⟩⟩]
    0 1 (by decide) (by decide) ⟨1, 0⟩ ⟨2, 0⟩
    (by decide) (by decide) (by decide) (by decide)

/-- State-threading rendering of the `is_consistent` scan: each step reads the
current list state and passes it on, returning the verdict together with the
final state, as the imperative scan does. -/
def isConsistentScan : List Experiment → ExperimentList → Bool × ExperimentList
  | [], l => (true, l)
  | e :: es, l =>
    let b := l.all fun e2 =>
      !(sameImagesetRef e.imageset e2.imageset) || optRefSame e.detector e2.detector
    let rest := isConsistentScan es l
    (b && rest.1, rest.2)

theorem isConsistentScan_spec :
    ∀ (xs : List Experiment) (l : ExperimentList),
      (isConsistentScan xs l).2 = l ∧
      (isConsistentScan xs l).1
        = xs.all (fun e1 => l.all fun e2 =>
            !(sameImagesetRef e1.imageset e2.imageset)
              || optRefSame e1.detector e2.detector) := by
  intro xs
  induction xs with
  | nil => intro l; exact ⟨rfl, rfl⟩
  | cons e es ih =>
    intro l
    constructor
    · simp [isConsistentScan, (ih l).1]
    · simp [isConsistentScan, (ih l).2, List.all_cons]

/-- C7: the consistency scan leaves the list state entirely unchanged and its
verdict is exactly the pure predicate `is_consistent` of the current state. -/
theorem is_consistent_pure (l : ExperimentList) :
    (isConsistentScan l l).2 = l ∧ (isConsistentScan l l).1 = is_consistent l :=
  ⟨(isConsistentScan_spec l l).1, (isConsistentScan_spec l l).2⟩

/-- Embeds `ExperimentListPickleSuite::getinitargs` (experiment_list.cc lines
40-49): collect `obj[i]` for `i` in `[0, size())`, in order, as the single
constructor argument used to rebuild the list. -/
def getinitargs (obj : ExperimentList) : List Experiment :=
  (List.range obj.length).map fun i => obj.getD i default

/-- Embeds `make_experiment_list` (experiment_list.cc lines 26-37): start
from a new empty ExperimentList and append each supplied item in order. -/
def make_experiment_list (items : List Experiment) : ExperimentList :=
  items.foldl (fun acc e => acc ++ [e]) []

theorem getinitargs_eq (l : ExperimentList) : getinitargs l = l := by
  unfold getinitargs
  apply List.ext_getElem
  · simp
  · intro i h1 h2
    simp [List.getElem_map, List.getElem_range, List.getD_eq_getElem l default h2,
      List.getElem?_eq_getElem h2]

theorem foldl_append_acc (items : List Experiment) :
    ∀ acc : List Experiment,
      items.foldl (fun acc e => acc ++ [e]) acc = acc ++ items := by
  induction items with
  | nil => intro acc; simp
  | cons e es ih =>
    intro acc
    rw [List.foldl_cons, ih (acc ++ [e])]
    simp

/-- C8: pickling reconstructs the list purely from its contained Experiments:
`getinitargs` yields exactly the stored Experiments in index order, and the
constructor applied to that ordered sequence reproduces the original list
(same size, same Experiment at every position). -/
theorem pickle_roundtrip (l : ExperimentList) :
    getinitargs l = l ∧ make_experiment_list (getinitargs l) = l := by
  have h := getinitargs_eq l
  refine ⟨h, ?_⟩
  rw [h]
  unfold make_experiment_list
  rw [foldl_append_acc l []]
  simp

/-- The structured representation exchanged with the scripting layer (a
Python dict); its entries are opaque key-value pairs here. -/
abbrev PyDict := List (String × String)

/-- Embeds `to_dict<ExperimentList>` (experiment_list.cc lines 51-55): a new
empty dict is created and returned; `obj` is never consulted. -/
def to_dict (obj : ExperimentList) : PyDict := []

/-- Embeds `from_dict<ExperimentList>` (experiment_list.cc lines 57-60): a
new default-constructed, empty ExperimentList is returned; `obj` is never
consulted. -/
def from_dict (obj : PyDict) : ExperimentList := []

/-- C9 counterexample: round-tripping a one-element list through
`to_dict` / `from_dict` yields the empty list, not the original. -/
theorem serialization_roundtrip_counterexample :
    from_dict (to_dict [⟨none, none, none, none, none, none, some ⟨1, 0⟩⟩])
      ≠ [⟨none, none, none, none, none, none, some ⟨1, 0⟩⟩] := by
  decide

/-- C9 (amended): at this layer the round trip always produces the empty
ExperimentList, so it reconstructs the original exactly when the original is
empty. -/
theorem serialization_roundtrip_empty (l : ExperimentList) :
    from_dict (to_dict l) = [] ∧ (from_dict (to_dict l) = l ↔ l = []) := by
  constructor
  · rfl
  · simp [from_dict, to_dict, eq_comm]

/-- C10: the serialization hooks discard all data at this layer: `to_dict`
returns the empty dict whatever the list holds, and `from_dict` returns a
newly constructed empty ExperimentList whatever the dict holds. -/
theorem serialization_discards (l : ExperimentList) (d : PyDict) :
    to_dict l = [] ∧ from_dict d = [] :=
  ⟨rfl, rfl⟩

end Dxtbx
